import Mathlib

/-!
Shallow embedding of the codecrafters-redis-rust repository: the RESP frame
model (src/frame.rs), the iterative decoder and encoder of the connection
layer (src/connection.rs), the command parser (src/command.rs), the keystore
(src/db.rs) and the per-connection loop (src/main.rs).

Modelling conventions:

* A byte is a `Nat` (always `< 256` on a real stream); a byte buffer is a
  `List Nat`.
* The connection's `BytesMut` read buffer plus the not-yet-received stream
  bytes always concatenate to one byte sequence, and `must_fill_buf` fails
  with `UnexpectedEof` exactly when that sequence is exhausted.  The decoder
  is therefore modelled as a function on a single finite `List Nat`:
  end-of-stream is reached exactly when the list is empty.  Helpers consume
  from the front of that list on success only, matching `split_to` /
  `get_u8`, which split bytes off the buffer only once they are available.
* Rust panics (arithmetic underflow/overflow under the default debug
  profile, or the resulting out-of-bounds `split_off` in release builds) are
  modelled by a distinguished `panicked` outcome.
* `HashMap` is modelled extensionally as a function from keys to optional
  values; `Instant`/`Duration` as natural numbers of milliseconds on a
  monotonic clock.
-/

namespace RespModel

/-- Frame (src/frame.rs, the `build_matching_prefix_and_frame_enums!` table):
`Array(Option<Vec<Frame>>) = b'*'`, `Boolean(bool) = b'#'`,
`Bulk(Option<BytesMut>) = b'$'`, `Error(BytesMut) = b'-'`,
`Integer(i64) = b':'`, `Null = b'_'`, `String(BytesMut) = b'+'`.
A `none` payload is the null array / null bulk. -/
inductive Frame where
  | array (a : Option (List Frame))
  | boolean (b : Bool)
  | bulk (d : Option (List Nat))
  | error (e : List Nat)
  | integer (i : Int)
  | null
  | string (s : List Nat)

/-- The one-byte wire discriminant of each frame variant (`enum Prefix` in
src/frame.rs; named `FrameTag` here to keep identifiers clear of notation
keywords). -/
inductive FrameTag where
  | array
  | boolean
  | bulk
  | error
  | integer
  | null
  | string
deriving DecidableEq

/-- `impl TryFrom<u8> for Prefix` (src/frame.rs): reverse lookup of the
prefix byte.  42 is `*`, 35 is `#`, 36 is `$`, 45 is `-`, 58 is `:`,
95 is `_`, 43 is `+`; anything else is `InvalidPrefix`. -/
def tagOfByte (b : Nat) : Option FrameTag :=
  if b = 42 then some FrameTag.array
  else if b = 35 then some FrameTag.boolean
  else if b = 36 then some FrameTag.bulk
  else if b = 45 then some FrameTag.error
  else if b = 58 then some FrameTag.integer
  else if b = 95 then some FrameTag.null
  else if b = 43 then some FrameTag.string
  else none

/-- `Frame::prefix` (src/frame.rs): the discriminant byte of a frame. -/
def Frame.prefixByte : Frame → Nat
  | .array _ => 42
  | .boolean _ => 35
  | .bulk _ => 36
  | .error _ => 45
  | .integer _ => 58
  | .null => 95
  | .string _ => 43

/-- `Frame::bytes` (src/frame.rs): the payload bytes of a `String` or a
non-null `Bulk`, `None` otherwise. -/
def Frame.bytes : Frame → Option (List Nat)
  | .string s => some s
  | .bulk (some d) => some d
  | _ => none

/-- `Frame::i64` (src/frame.rs): the payload of an `Integer`, `None`
otherwise. -/
def Frame.i64 : Frame → Option Int
  | .integer i => some i
  | _ => none

/-- `ReadError` (src/connection.rs).  The only `std::io::ErrorKind` the pure
model can produce is `UnexpectedEof` (a finite stream has no other I/O
failures), so `IoError(ErrorKind)` is modelled by `ioUnexpectedEof`; the
payloads of `ParseIntError` and `Utf8Error` are not inspected anywhere and
are dropped.  `InvalidPrefix` is rendered `invalidPrefixByte`. -/
inductive ReadError where
  | invalidBool
  | invalidPrefixByte
  | ioUnexpectedEof
  | missingTerminator
  | parseIntError
  | utf8Error
deriving DecidableEq

/-- Outcome of `Connection::read_frame`: `Ok(Some(frame))`, `Ok(None)` or
`Err(e)` together with the bytes still unconsumed (buffer plus stream), or a
Rust panic. -/
inductive ReadOutcome where
  | panicked
  | ok (f : Option Frame) (rest : List Nat)
  | err (e : ReadError) (rest : List Nat)

/-- The decoder's explicit stack of pending arrays: each entry is the
accumulated children and the intended length
(`Vec<(Vec<Frame>, usize)>` in `read_frame`; head = top of stack). -/
abbrev Stack := List (List Frame × Nat)

/-- CRLF, the mandatory line terminator (`const CRLF` in src/connection.rs). -/
def crlf : List Nat := [13, 10]

/-- `Connection::read_line`: all bytes up to and including the next LF
(byte 10), together with the remaining input; `none` when the stream ends
before an LF is found (`must_fill_buf` fails with `UnexpectedEof`).  On
failure nothing has been split off the buffer. -/
def readLine : List Nat → Option (List Nat × List Nat)
  | [] => none
  | b :: rest =>
    if b = 10 then some ([b], rest)
    else
      match readLine rest with
      | none => none
      | some (line, r) => some (b :: line, r)

/-- `Connection::read_exact`: exactly `n` bytes split off the front, or
`none` when the stream ends first.  On failure nothing has been consumed. -/
def readExact (n : Nat) (l : List Nat) : Option (List Nat × List Nat) :=
  if n ≤ l.length then some (l.take n, l.drop n) else none

/-- Is `b` a UTF-8 continuation byte (`0x80..=0xBF`)? -/
def isContByte (b : Nat) : Bool := 128 ≤ b && b ≤ 191

/-- Consume `k` UTF-8 continuation bytes (`0x80..=0xBF`) from the front,
returning the remainder. -/
def utf8Conts : Nat → List Nat → Option (List Nat)
  | 0, r => some r
  | k + 1, t =>
    match t with
    | c :: r => if isContByte c then utf8Conts k r else none
    | [] => none

/-- Consume one tail byte constrained to `lo..=hi` and then `k` further
continuation bytes. -/
def utf8Tail (lo hi k : Nat) (t : List Nat) : Option (List Nat) :=
  match t with
  | c :: r => if lo ≤ c && c ≤ hi then utf8Conts k r else none
  | [] => none

/-- Consume the tail of one UTF-8 encoded scalar whose leading byte is `b`
(RFC 3629 well-formedness as enforced by Rust's `core::str::from_utf8`):
ASCII stands alone; `C2..DF` takes one continuation byte; `E0`/`E1..EC`/
`ED`/`EE..EF` take a constrained tail byte plus one continuation byte
(excluding overlongs and surrogates); `F0`/`F1..F3`/`F4` take a constrained
tail byte plus two continuation bytes (excluding overlongs and values above
`U+10FFFF`); anything else is invalid. -/
def utf8Step (b : Nat) (rest : List Nat) : Option (List Nat) :=
  if b ≤ 127 then some rest
  else if 194 ≤ b && b ≤ 223 then utf8Tail 128 191 0 rest
  else if b = 224 then utf8Tail 160 191 1 rest
  else if 225 ≤ b && b ≤ 236 then utf8Tail 128 191 1 rest
  else if b = 237 then utf8Tail 128 159 1 rest
  else if 238 ≤ b && b ≤ 239 then utf8Tail 128 191 1 rest
  else if b = 240 then utf8Tail 144 191 2 rest
  else if 241 ≤ b && b ≤ 243 then utf8Tail 128 191 2 rest
  else if b = 244 then utf8Tail 128 143 2 rest
  else none

/-- The fuelled validity loop of `str::from_utf8`: one scalar per
iteration.  Every scalar consumes at least its leading byte, so fuel
`l.length + 1` never runs out. -/
def isValidUtf8F : Nat → List Nat → Bool
  | 0, l => l.isEmpty
  | F + 1, l =>
    match l with
    | [] => true
    | b :: rest =>
      match utf8Step b rest with
      | some r => isValidUtf8F F r
      | none => false

/-- Validity check of `str::from_utf8`. -/
def isValidUtf8 (l : List Nat) : Bool := isValidUtf8F (l.length + 1) l

/-- Is `b` an ASCII decimal digit (`'0'..='9'`)? -/
def isDigitByte (b : Nat) : Bool := 48 ≤ b && b ≤ 57

/-- Accumulate the decimal value of a run of ASCII digit bytes;
`none` as soon as a non-digit appears (Rust `InvalidDigit`). -/
def digitsValAux (acc : Nat) : List Nat → Option Nat
  | [] => some acc
  | b :: rest =>
    if isDigitByte b then digitsValAux (acc * 10 + (b - 48)) rest else none

/-- Decimal value of a non-empty all-digit byte string; `none` for the empty
string (Rust `Empty`) or on a non-digit. -/
def digitsVal : List Nat → Option Nat
  | [] => none
  | l => digitsValAux 0 l

/-- Rust `str::parse::<usize>` on a 64-bit target: an optional leading `+`
followed by one or more ASCII digits, value at most `usize::MAX`; a leading
`-` is not accepted for an unsigned type (it falls through to the digit
check and yields `InvalidDigit`). -/
def parseU64 (s : List Nat) : Option Nat :=
  match digitsVal (if s.head? = some 43 then s.tail else s) with
  | some n => if n < 2 ^ 64 then some n else none
  | none => none

/-- Rust `str::parse::<i64>`: an optional sign followed by one or more
ASCII digits, within the signed 64-bit range. -/
def parseI64 (s : List Nat) : Option Int :=
  if s.head? = some 43 then
    match digitsVal s.tail with
    | some n => if n ≤ 2 ^ 63 - 1 then some (n : Int) else none
    | none => none
  else if s.head? = some 45 then
    match digitsVal s.tail with
    | some n => if n ≤ 2 ^ 63 then some (-(n : Int)) else none
    | none => none
  else
    match digitsVal s with
    | some n => if n ≤ 2 ^ 63 - 1 then some (n : Int) else none
    | none => none

/-- `str::from_utf8(&payload)?.parse::<usize>()?` as used for `*` and `$`
headers in `read_frame`: invalid UTF-8 surfaces as `Utf8Error`, a failed
numeric parse as `ParseIntError`. -/
def parseHeaderUsize (payload : List Nat) : Except ReadError Nat :=
  if isValidUtf8 payload then
    match parseU64 payload with
    | some n => Except.ok n
    | none => Except.error ReadError.parseIntError
  else Except.error ReadError.utf8Error

/-- `str::from_utf8(&payload)?.parse::<i64>()?` as used for `:` headers. -/
def parseHeaderI64 (payload : List Nat) : Except ReadError Int :=
  if isValidUtf8 payload then
    match parseI64 payload with
    | some i => Except.ok i
    | none => Except.error ReadError.parseIntError
  else Except.error ReadError.utf8Error

/-- Result of the fold-completed-arrays inner `while` loop of `read_frame`:
either the top-level frame to return, or the stack with an incomplete (or
no) top entry. -/
inductive FoldOut where
  | finished (f : Frame)
  | pending (stack : Stack)

/-- Push a completed frame into the stack and keep folding: `read_frame`'s
inner loop after popping a completed array.  If the stack is empty the frame
is the top-level result; otherwise it is appended to the next accumulator,
which may itself become complete and fold further. -/
def pushFold (f : Frame) : Stack → FoldOut
  | [] => FoldOut.finished f
  | (arr, cap) :: rest =>
    if (arr ++ [f]).length = cap then pushFold (Frame.array (some (arr ++ [f]))) rest
    else FoldOut.pending ((arr ++ [f], cap) :: rest)

/-- The fold-completed-arrays `while` loop at the top of `read_frame`'s main
loop: while the top entry has `arr.len() == intended_capacity`, pop it, wrap
it in `Frame::Array`, and push it into the entry below (or return it). -/
def foldStack : Stack → FoldOut
  | [] => FoldOut.pending []
  | (arr, cap) :: rest =>
    if arr.length = cap then pushFold (Frame.array (some arr)) rest
    else FoldOut.pending ((arr, cap) :: rest)

/-- One step of the decoder's outer loop after folding: either a terminal
outcome, or a continuation with the remaining input and updated stack. -/
inductive StepRes where
  | term (o : ReadOutcome)
  | stepTo (input : List Nat) (stack : Stack)

/-- After `read_frame` produces a complete non-header frame: if the stack is
non-empty, push it into the top accumulator and continue the loop; if the
stack is empty, return it (`Ok(Some(frame))`). -/
def pushOrReturn (f : Frame) (stack : Stack) (rest : List Nat) : StepRes :=
  match stack with
  | [] => StepRes.term (ReadOutcome.ok (some f) rest)
  | (arr, cap) :: s => StepRes.stepTo rest ((arr ++ [f], cap) :: s)

/-- The prefix dispatch of `read_frame` (the `match prefix` block), applied
to the header payload (the line minus its trailing CRLF).

* `*`: parse the payload as `usize`; `Vec::with_capacity(size)` has nonzero
  capacity exactly when `size != 0`, in which case the accumulator is pushed
  and the loop continues; a zero size yields `Frame::Array` of an empty
  vector immediately.  (`"-1"` does not parse as `usize`, so a null-array
  header is a `ParseIntError`.)
* `#`: payload must be exactly `t` (116) or `f` (102), else `InvalidBool`.
* `$`: parse the payload as `usize`, add 2 (a `usize` addition: overflow
  panics under the default debug profile), read exactly that many bytes,
  require the last two to be CRLF; the rest form the bulk payload.
* `-`, `+`: the payload is the frame payload.
* `:`: parse the payload as `i64`.
* `_`: produce `Frame::Null` (the payload is not inspected). -/
def dispatchTag (t : FrameTag) (payload : List Nat) (stack : Stack)
    (rest : List Nat) : StepRes :=
  match t with
  | .array =>
    match parseHeaderUsize payload with
    | .error e => StepRes.term (ReadOutcome.err e rest)
    | .ok size =>
      if size ≠ 0 then StepRes.stepTo rest (([], size) :: stack)
      else pushOrReturn (Frame.array (some [])) stack rest
  | .boolean =>
    if payload = [116] then pushOrReturn (Frame.boolean true) stack rest
    else if payload = [102] then pushOrReturn (Frame.boolean false) stack rest
    else StepRes.term (ReadOutcome.err ReadError.invalidBool rest)
  | .bulk =>
    match parseHeaderUsize payload with
    | .error e => StepRes.term (ReadOutcome.err e rest)
    | .ok n =>
      if 2 ^ 64 ≤ n + 2 then StepRes.term ReadOutcome.panicked
      else
        match readExact (n + 2) rest with
        | none => StepRes.term (ReadOutcome.err ReadError.ioUnexpectedEof rest)
        | some (data, rest2) =>
          if data.drop n ≠ crlf then
            StepRes.term (ReadOutcome.err ReadError.missingTerminator rest2)
          else pushOrReturn (Frame.bulk (some (data.take n))) stack rest2
  | .error => pushOrReturn (Frame.error payload) stack rest
  | .integer =>
    match parseHeaderI64 payload with
    | .error e => StepRes.term (ReadOutcome.err e rest)
    | .ok i => pushOrReturn (Frame.integer i) stack rest
  | .null => pushOrReturn Frame.null stack rest
  | .string => pushOrReturn (Frame.string payload) stack rest

/-- The body of one iteration of `read_frame`'s outer loop, after the fold
step: read the prefix byte (end-of-stream here with an empty stack is the
clean `Ok(None)`; with a pending array it is `UnexpectedEof`), read the
header line, check its trailing CRLF (`payload.split_off(payload.len() - 2)`
panics by arithmetic underflow when the line is shorter than two bytes,
i.e. a bare LF), then dispatch on the prefix. -/
def readHead (input : List Nat) (stack : Stack) : StepRes :=
  match input with
  | [] =>
    if stack.isEmpty then StepRes.term (ReadOutcome.ok none [])
    else StepRes.term (ReadOutcome.err ReadError.ioUnexpectedEof [])
  | b :: rest =>
    match tagOfByte b with
    | none => StepRes.term (ReadOutcome.err ReadError.invalidPrefixByte rest)
    | some t =>
      match readLine rest with
      | none => StepRes.term (ReadOutcome.err ReadError.ioUnexpectedEof rest)
      | some (line, rest2) =>
        if line.length < 2 then StepRes.term ReadOutcome.panicked
        else if line.drop (line.length - 2) ≠ crlf then
          StepRes.term (ReadOutcome.err ReadError.missingTerminator rest2)
        else dispatchTag t (line.take (line.length - 2)) stack rest2

/-- The outer loop of `read_frame`, fuelled.  Every iteration that continues
consumes at least one input byte (the prefix byte), so a fuel of
`input.length + 1` can never run out; the fuel-zero branch is unreachable
junk (see `readLoopF_congr`). -/
def readLoopF : Nat → List Nat → Stack → ReadOutcome
  | 0, input, _ => ReadOutcome.err ReadError.ioUnexpectedEof input
  | fuel + 1, input, stack =>
    match foldStack stack with
    | FoldOut.finished f => ReadOutcome.ok (some f) input
    | FoldOut.pending stack2 =>
      match readHead input stack2 with
      | StepRes.term o => o
      | StepRes.stepTo input2 stack3 => readLoopF fuel input2 stack3

/-- `read_frame`'s loop on a given input and pending-array stack. -/
def readLoop (input : List Nat) (stack : Stack) : ReadOutcome :=
  readLoopF (input.length + 1) input stack

/-- `Connection::read_frame` (src/connection.rs): decode one top-level frame
from the remaining input, starting from an empty pending-array stack. -/
def readFrame (input : List Nat) : ReadOutcome :=
  readLoop input []

/-- Decimal value of a list of digits, least significant digit first
(a proof-side helper for the digit lemmas, not part of the source). -/
def lval : List Nat → Nat
  | [] => 0
  | d :: ds => d + 10 * lval ds

/-- Decimal digits of `n`, least significant first, fuelled (the fuel
`n + 1` always suffices). -/
def natDigitsRevF : Nat → Nat → List Nat
  | 0, _ => []
  | fuel + 1, n => if n < 10 then [n] else n % 10 :: natDigitsRevF fuel (n / 10)

/-- The ASCII bytes of `n.to_string()` for an unsigned integer: minimal
decimal, most significant digit first, `"0"` for zero. -/
def natToBytes (n : Nat) : List Nat :=
  (natDigitsRevF (n + 1) n).reverse.map (fun d => d + 48)

/-- The ASCII bytes of `i.to_string()` for an `i64`: a `-` sign (45) for
negative values, then the decimal digits. -/
def intToBytes (i : Int) : List Nat :=
  if i < 0 then 45 :: natToBytes i.natAbs else natToBytes i.toNat

/-- `Connection::write_frame` (src/connection.rs), and the bytes it appends
to the write buffer.  The source traverses the frame iteratively with a
stack of array iterators (`iter_stack`), visiting frames in pre-order and
emitting, for each visited frame, its prefix byte, its header/payload, and
CRLF — for an array, its children's serializations follow its header.  That
pre-order emission is expressed here by structural recursion.

The source matches `Frame::Array(array)` and `Frame::Bulk(bulk)` and calls
`.len()` / `.as_ref()` on the payload, which is only defined for a `Vec` /
byte payload; against the data model of src/frame.rs
(`Array(Option<Vec<Frame>>)`, `Bulk(Option<BytesMut>)`) the null cases have
no defined serialization (the crate does not compile as written), so the
embedding returns `none` for a frame containing a null array or null bulk. -/
def writeFrame : Frame → Option (List Nat)
  | Frame.array none => none
  | Frame.array (some l) =>
    match writeList l with
    | none => none
    | some body => some (42 :: natToBytes l.length ++ crlf ++ body)
  | Frame.boolean b => some (35 :: (if b then 116 else 102) :: crlf)
  | Frame.bulk none => none
  | Frame.bulk (some d) => some (36 :: natToBytes d.length ++ crlf ++ d ++ crlf)
  | Frame.error e => some (45 :: e ++ crlf)
  | Frame.integer i => some (58 :: intToBytes i ++ crlf)
  | Frame.null => some (95 :: crlf)
  | Frame.string s => some (43 :: s ++ crlf)
where
  /-- Serialization of an array's children in order. -/
  writeList : List Frame → Option (List Nat)
  | [] => some []
  | f :: fs =>
    match writeFrame f, writeList fs with
    | some bf, some bfs => some (bf ++ bfs)
    | _, _ => none

/-- Is `l` free of CR (13) and LF (10)?  The data model of the spec requires
`String`/`Error` payloads to contain neither. -/
def lineSafe (l : List Nat) : Bool := l.all (fun b => b ≠ 13 && b ≠ 10)

/-- Are all entries of `l` bytes (`< 256`)?  `BytesMut` stores `u8`s. -/
def bytesOk (l : List Nat) : Bool := l.all (fun b => decide (b < 256))

/-- The frames of the data model that `write_frame` can serialize: no null
bulk and no null array anywhere (the source cannot serialize those, see
`writeFrame`), `String`/`Error` payloads free of CR/LF, integers in the
signed 64-bit range, payload lengths representable (a bulk's `len + 2` and
an array's `len` must fit in `usize`), and all payload entries bytes. -/
def Encodable : Frame → Bool
  | Frame.array none => false
  | Frame.array (some l) => decide (l.length < 2 ^ 64) && encodableList l
  | Frame.boolean _ => true
  | Frame.bulk none => false
  | Frame.bulk (some d) => decide (d.length + 2 < 2 ^ 64) && bytesOk d
  | Frame.error e => bytesOk e && lineSafe e
  | Frame.integer i => decide (-(2 ^ 63 : Int) ≤ i ∧ i < 2 ^ 63)
  | Frame.null => true
  | Frame.string s => bytesOk s && lineSafe s
where
  /-- All children encodable. -/
  encodableList : List Frame → Bool
  | [] => true
  | f :: fs => Encodable f && encodableList fs

/-! ## Command model (src/command.rs)

The enum `Command` with `Ping`, `Echo { message }`, `Get { key }`,
`Set { key, value, expires: Option<Instant> }`, and parse errors.
`tokio::time::Instant` is modelled as a natural number of milliseconds on a
monotonic clock; `Instant::now()` at parse time becomes the explicit `now`
argument (overflow of the 64-bit `Duration`/`Instant` arithmetic on
astronomically large `EX` counts is not modelled). -/

/-- `enum Command` (src/command.rs). -/
inductive Command where
  | ping
  | echo (message : List Nat)
  | get (key : List Nat)
  | set (key : List Nat) (value : List Nat) (expires : Option Nat)
deriving DecidableEq

/-- `enum Error` of src/command.rs (named `CmdError` to avoid clashing with
the frame decoder's errors). -/
inductive CmdError where
  | notAnArray
  | missingArgument
  | unexpectedArgument
  | wrongType
  | unknownCommand
deriving DecidableEq

/-- `make_ascii_lowercase` on a byte string. -/
def lowerAscii (l : List Nat) : List Nat :=
  l.map (fun b => if 65 ≤ b ∧ b ≤ 90 then b + 32 else b)

/-- ASCII bytes of the literal `"ping"`. -/
def pingBytes : List Nat := [112, 105, 110, 103]

/-- ASCII bytes of the literal `"echo"`. -/
def echoBytes : List Nat := [101, 99, 104, 111]

/-- ASCII bytes of the literal `"get"`. -/
def getBytes : List Nat := [103, 101, 116]

/-- ASCII bytes of the literal `"set"`. -/
def setBytes : List Nat := [115, 101, 116]

/-- ASCII bytes of the literal `"ex"`. -/
def exBytes : List Nat := [101, 120]

/-- ASCII bytes of the literal `"px"`. -/
def pxBytes : List Nat := [112, 120]

/-- ASCII bytes of the literal `"PONG"`. -/
def pongBytes : List Nat := [80, 79, 78, 71]

/-- ASCII bytes of the literal `"OK"`. -/
def okBytes : List Nat := [79, 75]

/-- The `while let Some(arg) = args.next()` loop of the `set` branch
(src/command.rs lines 84-100): each remaining argument must be a bytes
frame (else `WrongType`); lowercased, it must be `ex` or `px` (else
`UnexpectedArgument`); `next_uint!` then takes the following argument,
which must be an `Integer` frame (`Frame::i64`, else `WrongType`) whose
value converts to `u64` (non-negative, else `WrongType`), and
`expires = Some(Instant::now() + Duration::from_secs/millis(n))`.

The inner `match n { b"ex" => .., b"px" => .. }` at line 92 names an
undefined binder `n` and is non-exhaustive (the file does not compile); it
evidently scrutinizes the lowercased option token already matched by the
enclosing arm, and is embedded that way.  The stray `optional_args!`
invocation at lines 62-67 matches no rule of its `macro_rules!` definition
(another compile error) and expands to nothing under the definition's only
rule, so it contributes no behaviour. -/
def setArgsLoop (now : Nat) (key value : List Nat) (expires : Option Nat) :
    List Frame → Except CmdError Command
  | [] => Except.ok (Command.set key value expires)
  | argF :: args =>
    match argF.bytes with
    | none => Except.error CmdError.wrongType
    | some a =>
      let arg := lowerAscii a
      if arg = exBytes ∨ arg = pxBytes then
        match args with
        | [] => Except.error CmdError.missingArgument
        | nF :: args2 =>
          match nF.i64 with
          | none => Except.error CmdError.wrongType
          | some i =>
            if i < 0 then Except.error CmdError.wrongType
            else
              setArgsLoop now key value
                (some (now + (if arg = exBytes then i.toNat * 1000 else i.toNat)))
                args2
      else Except.error CmdError.unexpectedArgument

/-- `impl TryFrom<Frame> for Command` (src/command.rs): the frame must be a
non-null array (else `NotAnArray`); the first element must be a bytes frame
(`String` or non-null `Bulk`, via `Frame::bytes`; a missing element is
`MissingArgument`, a non-bytes one `WrongType`); the lowercased name
dispatches to `ping` (no further elements are examined), `echo`/`get` (one
bytes argument is taken, further elements are not examined), `set` (two
bytes arguments, then the option loop `setArgsLoop`), else
`UnknownCommand`. -/
def Command.tryFrom (now : Nat) (f : Frame) : Except CmdError Command :=
  match f with
  | Frame.array (some arr) =>
    match arr with
    | [] => Except.error CmdError.missingArgument
    | first :: args =>
      match first.bytes with
      | none => Except.error CmdError.wrongType
      | some name =>
        let cmd := lowerAscii name
        if cmd = pingBytes then Except.ok Command.ping
        else if cmd = echoBytes then
          match args with
          | [] => Except.error CmdError.missingArgument
          | m :: _ =>
            match m.bytes with
            | none => Except.error CmdError.wrongType
            | some msg => Except.ok (Command.echo msg)
        else if cmd = getBytes then
          match args with
          | [] => Except.error CmdError.missingArgument
          | k :: _ =>
            match k.bytes with
            | none => Except.error CmdError.wrongType
            | some key => Except.ok (Command.get key)
        else if cmd = setBytes then
          match args with
          | [] => Except.error CmdError.missingArgument
          | k :: args2 =>
            match k.bytes with
            | none => Except.error CmdError.wrongType
            | some key =>
              match args2 with
              | [] => Except.error CmdError.missingArgument
              | v :: args3 =>
                match v.bytes with
                | none => Except.error CmdError.wrongType
                | some value => setArgsLoop now key value none args3
        else Except.error CmdError.unknownCommand
  | _ => Except.error CmdError.notAnArray

/-- `Command::is_write` (src/command.rs): true only for `Set`. -/
def Command.is_write : Command → Bool
  | Command.ping => false
  | Command.echo _ => false
  | Command.get _ => false
  | Command.set _ _ _ => true

/-! ## Keystore (src/db.rs)

`Db` holds an `Arc<Mutex<State>>` with `keystore: HashMap<Bytes, BytesMut>`.
The map is modelled extensionally as a function from keys to optional
values (`HashMap::insert` replaces any existing record, `HashMap::get`
looks up); the mutex only serializes `apply` calls, which the sequential
model renders as explicit state passing. -/

/-- The keystore state behind the mutex. -/
structure DbState where
  keystore : List Nat → Option (List Nat)

/-- A freshly created database (`Db::new`): the empty map. -/
def DbState.empty : DbState := ⟨fun _ => none⟩

/-- `HashMap::insert` (replace-or-add), extensionally. -/
def insertKey (m : List Nat → Option (List Nat)) (k v : List Nat) :
    List Nat → Option (List Nat) :=
  fun q => if q = k then some v else m q

/-- `Db::apply` (src/db.rs): `Ping → Bulk(Some("PONG"))`,
`Echo → Bulk(Some(message))`, `Set { key, value, .. } →` insert
`key ↦ value` and reply `Bulk(Some("OK"))` — note the `..` pattern: the
`expires` field is discarded and the map stores only the value —
`Get { key } → Bulk(keystore.get(key))` (so `Bulk(None)`, the null bulk,
when the key is absent; no expiry information exists to be checked). -/
def Db.apply (cmd : Command) (s : DbState) : Frame × DbState :=
  match cmd with
  | Command.ping => (Frame.bulk (some pongBytes), s)
  | Command.echo m => (Frame.bulk (some m), s)
  | Command.set k v _ => (Frame.bulk (some okBytes), ⟨insertKey s.keystore k v⟩)
  | Command.get k => (Frame.bulk (s.keystore k), s)

/-! ## The per-connection task loop (src/main.rs) -/

/-- What the connection task does next at the top of its loop. -/
inductive TaskAction where
  | exitTask
  | continueLoop
deriving DecidableEq

/-- The control decision of the connection task's loop body on the result of
`read_frame` (src/main.rs lines 17-25): `Ok(Some(frame))` is processed and
the loop continues; `Ok(None)` breaks (disconnect); `Err(e)` is printed and
the loop `continue`s — the task reads the next frame from the same
stream. -/
def connectionStep : Except ReadError (Option Frame) → TaskAction
  | Except.ok none => TaskAction.exitTask
  | Except.ok (some _) => TaskAction.continueLoop
  | Except.error _ => TaskAction.continueLoop

/-- The loop's behaviour after `connection.write_frame(..).await` at
src/main.rs line 34: the returned `Result` is discarded (not `?`, not
matched), so whether or not the write failed the loop continues. -/
def afterWrite (_writeFailed : Bool) : TaskAction := TaskAction.continueLoop

/-- The connection task loop run to completion on a finite input stream:
the sequence of reply frames it hands to `write_frame`, in order
(src/main.rs lines 16-43).  A decode error is printed and the loop
continues with the bytes still buffered; a command parse error likewise; a
clean `Ok(None)` exits; a panic kills the task.  `command.apply()` in
src/main.rs names a method that does not exist (and `mod db` is never
declared); the evident intent, followed here, is `Db::apply` of src/db.rs.
The parse-time clock is fixed at 0, and fuel bounds the iteration count
(any fuel larger than the frame count of the input gives the full run). -/
def connectionLoop : Nat → List Nat → DbState → List Frame
  | 0, _, _ => []
  | fuel + 1, input, s =>
    match readFrame input with
    | ReadOutcome.panicked => []
    | ReadOutcome.ok none _ => []
    | ReadOutcome.ok (some f) rest =>
      match Command.tryFrom 0 f with
      | Except.error _ => connectionLoop fuel rest s
      | Except.ok cmd =>
        match Db.apply cmd s with
        | (reply, s2) => reply :: connectionLoop fuel rest s2
    | ReadOutcome.err _ rest => connectionLoop fuel rest s

/-! ## Auxiliary definitions for the statements and proofs -/

/-- Run one decoder step result: a terminal outcome stands, a continuation
re-enters the loop.  `readLoop` unfolds to this (see `readLoop_unfold`). -/
def stepRun : StepRes → ReadOutcome
  | StepRes.term o => o
  | StepRes.stepTo input stack => readLoop input stack

/-- The decoder's continuation after a complete frame `f` has been produced
with pending-array stack `stack` and remaining input `rest`: return it, or
push it into the top accumulator and keep looping. -/
def contFrame (f : Frame) (stack : Stack) (rest : List Nat) : ReadOutcome :=
  match stack with
  | [] => ReadOutcome.ok (some f) rest
  | (arr, cap) :: s => readLoop rest ((arr ++ [f], cap) :: s)

/-- Every pending array on the stack still misses at least one child.  This
is the decoder's loop invariant between the fold step and the read step. -/
def IncompleteStack (stack : Stack) : Prop :=
  ∀ e ∈ stack, (e.1 : List Frame).length < e.2

/-- The round-trip property claimed by the spec for a single frame:
`write_frame` produces bytes, and `read_frame` decodes exactly the same
frame from them, consuming all of them. -/
def RoundTrips (f : Frame) : Prop :=
  ∃ bs, writeFrame f = some bs ∧ readFrame bs = ReadOutcome.ok (some f) []

/-- Is this outcome the decoder returning `Err(IoError(UnexpectedEof))`? -/
def ReadOutcome.isUnexpectedEofErr : ReadOutcome → Bool
  | ReadOutcome.err ReadError.ioUnexpectedEof _ => true
  | _ => false

/-! # Theorems

First the claims that concrete evaluation settles, then the lemma
development for the round-trip (C1) and end-of-stream (C6) claims. -/

/-- C2: the decoder does not produce null frames from `$-1\r\n` / `*-1\r\n`.
Both headers are parsed with `str::parse::<usize>`, which rejects a minus
sign, so both inputs return `Err(ParseIntError)` instead of the null bulk /
null array; the empty bulk `$0\r\n\r\n` and empty array `*0\r\n` do decode.
On the encoder side `write_frame` has no defined serialization for
`Bulk(None)` / `Array(None)` (it calls `.len()` on the payload), so the null
frames cannot be written with length `-1` either.  This contradicts the
claim, the spec and the data model of src/frame.rs (and `Db::apply` replies
`Frame::Bulk(None)` for a missing key, which the encoder cannot encode). -/
theorem C2_null_headers_rejected :
    readFrame [36, 45, 49, 13, 10] = ReadOutcome.err ReadError.parseIntError [] ∧
    readFrame [42, 45, 49, 13, 10] = ReadOutcome.err ReadError.parseIntError [] ∧
    readFrame [36, 48, 13, 10, 13, 10]
      = ReadOutcome.ok (some (Frame.bulk (some []))) [] ∧
    readFrame [42, 48, 13, 10] = ReadOutcome.ok (some (Frame.array (some []))) [] ∧
    writeFrame (Frame.bulk none) = none ∧
    writeFrame (Frame.array none) = none :=
  ⟨rfl, rfl, rfl, rfl, rfl, rfl⟩

/-- C3: `Db::apply` ignores expiry entirely.  The `Set { key, value, .. }`
pattern discards the parsed `expires` deadline and the keystore stores only
the value, so a `Get` after the deadline (after any delay — the code never
consults a clock) still returns the stored value instead of the null
bulk. -/
theorem C3_get_after_deadline_returns_value (k v : List Nat) (d : Nat)
    (s : DbState) :
    (Db.apply (Command.get k) (Db.apply (Command.set k v (some d)) s).2).1
      = Frame.bulk (some v) := by
  simp [Db.apply, insertKey]

/-- C4 counterexample: on a decoder error the connection task does not close
the connection — the loop body maps `Err(..)` to `continue`, not to
`break`. -/
theorem C4_counterexample_error_continues :
    connectionStep (Except.error ReadError.missingTerminator)
        = TaskAction.continueLoop ∧
    connectionStep (Except.error ReadError.missingTerminator)
        ≠ TaskAction.exitTask := by
  exact ⟨rfl, by decide⟩

/-- C4 (amended): the connection task logs and continues the loop on every
decoder error (it attempts to read another frame from the same stream), it
exits only on the clean end-of-stream `Ok(None)`, and the result of
`write_frame` is discarded so the loop also continues after a failed write.
Concretely, a stream carrying the invalid frame `#x\r\n` followed by an
encoded `PING` command still gets the `PING` processed and replied to after
the `InvalidBool` error. -/
theorem C4_error_disposition :
    (∀ e : ReadError, connectionStep (Except.error e) = TaskAction.continueLoop) ∧
    connectionStep (Except.ok none) = TaskAction.exitTask ∧
    (∀ b : Bool, afterWrite b = TaskAction.continueLoop) ∧
    connectionLoop 3
        ([35, 120, 13, 10] ++
          [42, 49, 13, 10, 36, 52, 13, 10, 80, 73, 78, 71, 13, 10])
        DbState.empty
      = [Frame.bulk (some pongBytes)] := by
  refine ⟨fun e => rfl, rfl, fun b => rfl, rfl⟩

/-- C5: keystore semantics of `Db::apply`.  `Set` then `Get` on the same key
returns the stored value as a bulk; a second `Set` replaces the record
(`HashMap::insert`); `Get` on a never-set key returns the null bulk
`Frame::Bulk(None)`. -/
theorem C5_keystore_semantics (k v w : List Nat) (e1 e2 : Option Nat)
    (s : DbState) :
    (Db.apply (Command.get k) (Db.apply (Command.set k v e1) s).2).1
      = Frame.bulk (some v) ∧
    (Db.apply (Command.get k)
        (Db.apply (Command.set k w e2)
          (Db.apply (Command.set k v e1) s).2).2).1
      = Frame.bulk (some w) ∧
    (Db.apply (Command.get k) DbState.empty).1 = Frame.bulk none := by
  refine ⟨?_, ?_, ?_⟩ <;> simp [Db.apply, insertKey, DbState.empty]

/-- C7: the CRLF terminator check is not total.  On the input `+` LF the
header line is the single byte LF, and `payload.split_off(payload.len() - 2)`
evaluates `1usize - 2`: the subtraction underflows, which panics (directly
under the default debug profile, or through the out-of-bounds `split_off`
after wrapping in release builds) instead of returning
`Err(MissingTerminator)`.  Lines of two or more bytes that do not end in
CR LF are rejected with `MissingTerminator` as claimed. -/
theorem C7_bare_lf_panics :
    readFrame [43, 10] = ReadOutcome.panicked ∧
    readFrame [43, 97, 10] = ReadOutcome.err ReadError.missingTerminator [] ∧
    readFrame [43, 97, 98, 10] = ReadOutcome.err ReadError.missingTerminator [] :=
  ⟨rfl, rfl, rfl⟩

/-- C8 counterexample: the wire form of scenario S5 does not parse.  The
decoded S5 command is an array of bulk strings
`["SET", "k", "v", "PX", "10"]`, but `next_uint!` in the `set` option loop
requires the count to be an `Integer` frame (`Frame::i64`), so the bulk
string `"10"` is rejected with `Err(WrongType)` instead of producing a
`Command::Set` with a deadline. -/
theorem C8_counterexample_bulk_count_rejected :
    Command.tryFrom 0
        (Frame.array (some [Frame.bulk (some [83, 69, 84]),
          Frame.bulk (some [107]), Frame.bulk (some [118]),
          Frame.bulk (some [80, 88]), Frame.bulk (some [49, 48])]))
      = Except.error CmdError.wrongType := rfl

/-- C8 (amended): SET option parsing accepts an `EX`/`PX` option whose count
arrives as a non-negative `Integer` frame, producing
`expires = now + 1000·n` ms for `EX n` and `now + n` ms for `PX n`; a count
arriving as a bulk string — the only form a real client can send, and the
wire form of S5 — is rejected with `WrongType`. -/
theorem C8_set_option_parsing (now : Nat) (k v : List Nat) (n : Nat)
    (c : List Nat) :
    Command.tryFrom now
        (Frame.array (some [Frame.bulk (some setBytes), Frame.bulk (some k),
          Frame.bulk (some v), Frame.bulk (some pxBytes),
          Frame.integer (n : Int)]))
      = Except.ok (Command.set k v (some (now + n))) ∧
    Command.tryFrom now
        (Frame.array (some [Frame.bulk (some setBytes), Frame.bulk (some k),
          Frame.bulk (some v), Frame.bulk (some exBytes),
          Frame.integer (n : Int)]))
      = Except.ok (Command.set k v (some (now + n * 1000))) ∧
    Command.tryFrom now
        (Frame.array (some [Frame.bulk (some setBytes), Frame.bulk (some k),
          Frame.bulk (some v), Frame.bulk (some pxBytes),
          Frame.bulk (some c)]))
      = Except.error CmdError.wrongType := by
  refine ⟨?_, ?_, ?_⟩ <;>
    simp [Command.tryFrom, setArgsLoop, Frame.bytes, Frame.i64, lowerAscii,
      pingBytes, echoBytes, getBytes, setBytes, exBytes, pxBytes]

/-- C9 counterexample: a `PING` with an extra argument parses successfully
as `Command::Ping` — the extra element is silently ignored, not rejected
with `UnexpectedArgument`. -/
theorem C9_counterexample_ping_extra_arg_ok :
    Command.tryFrom 0
        (Frame.array (some [Frame.bulk (some [80, 73, 78, 71]),
          Frame.bulk (some [120])]))
      = Except.ok Command.ping ∧
    Command.tryFrom 0
        (Frame.array (some [Frame.bulk (some [80, 73, 78, 71]),
          Frame.bulk (some [120])]))
      ≠ Except.error CmdError.unexpectedArgument :=
  ⟨rfl, fun h => Except.noConfusion h⟩

/-- C9 (amended): `PING` ignores any further elements, and `ECHO`/`GET` take
their one argument and ignore any further elements, all parsing
successfully; missing required arguments do yield `MissingArgument`; and
`UnexpectedArgument` arises only in the `set` branch, for an option token
other than `ex`/`px`. -/
theorem C9_arity_behaviour (now : Nat) (m k v : List Nat) (rest : List Frame) :
    Command.tryFrom now (Frame.array (some (Frame.bulk (some pingBytes) :: rest)))
      = Except.ok Command.ping ∧
    Command.tryFrom now
        (Frame.array (some (Frame.bulk (some echoBytes) ::
          Frame.bulk (some m) :: rest)))
      = Except.ok (Command.echo m) ∧
    Command.tryFrom now
        (Frame.array (some (Frame.bulk (some getBytes) ::
          Frame.bulk (some k) :: rest)))
      = Except.ok (Command.get k) ∧
    Command.tryFrom now (Frame.array (some [Frame.bulk (some echoBytes)]))
      = Except.error CmdError.missingArgument ∧
    Command.tryFrom now (Frame.array (some [Frame.bulk (some getBytes)]))
      = Except.error CmdError.missingArgument ∧
    Command.tryFrom now
        (Frame.array (some [Frame.bulk (some setBytes), Frame.bulk (some k),
          Frame.bulk (some v), Frame.bulk (some [122])]))
      = Except.error CmdError.unexpectedArgument := by
  refine ⟨?_, ?_, ?_, ?_, ?_, ?_⟩ <;>
    simp [Command.tryFrom, setArgsLoop, Frame.bytes, lowerAscii,
      pingBytes, echoBytes, getBytes, setBytes, exBytes, pxBytes]

/-- C10: commands other than `Set` do not mutate the keystore — the `Ping`,
`Echo` and `Get` branches of `Db::apply` return the state untouched — and
`Command::is_write` is `true` exactly on `Set`. -/
theorem C10_nonwrite_commands_pure (cmd : Command) (s : DbState) :
    (cmd.is_write = false → (Db.apply cmd s).2 = s) ∧
    (cmd.is_write = true ↔ ∃ k v e, cmd = Command.set k v e) := by
  constructor
  · intro h
    cases cmd <;> simp_all [Db.apply, Command.is_write]
  · cases cmd <;> simp [Command.is_write]

/-- C10 witness: `Ping` is a non-write command and leaves the empty
keystore unchanged. -/
theorem C10_witness :
    Command.ping.is_write = false ∧
    (Db.apply Command.ping DbState.empty).2 = DbState.empty :=
  ⟨rfl, (C10_nonwrite_commands_pure Command.ping DbState.empty).1 rfl⟩

/-! ## Decoder unfolding lemmas

`readLoop` is defined through the fuelled `readLoopF`; the lemmas here show
the fuel is irrelevant whenever it exceeds the input length (every loop
iteration that continues consumes at least the prefix byte), giving the
clean unfolding equation `readLoop_unfold`. -/

theorem readLine_none (l : List Nat) (h : ∀ b ∈ l, b ≠ 10) :
    readLine l = none := by
  induction l with
  | nil => rfl
  | cons b rest ih =>
    have hb : b ≠ 10 := h b (List.mem_cons_self b rest)
    have hr : readLine rest = none :=
      ih (fun x hx => h x (List.mem_cons_of_mem b hx))
    simp [readLine, hb, hr]

theorem readLine_append (s r : List Nat) (h : ∀ b ∈ s, b ≠ 10) :
    readLine (s ++ 10 :: r) = some (s ++ [10], r) := by
  induction s with
  | nil => simp [readLine]
  | cons b rest ih =>
    have hb : b ≠ 10 := h b (List.mem_cons_self b rest)
    have hr := ih (fun x hx => h x (List.mem_cons_of_mem b hx))
    simp [readLine, hb, hr]

theorem readLine_eq_append (l ln r : List Nat) (h : readLine l = some (ln, r)) :
    l = ln ++ r ∧ ln ≠ [] := by
  induction l generalizing ln r with
  | nil => simp [readLine] at h
  | cons b rest ih =>
    by_cases hb : b = 10
    · subst hb
      simp [readLine] at h
      obtain ⟨h1, h2⟩ := h
      subst h1; subst h2
      exact ⟨rfl, by simp⟩
    · cases hr : readLine rest with
      | none => simp [readLine, hb, hr] at h
      | some p =>
        obtain ⟨ln2, r2⟩ := p
        simp [readLine, hb, hr] at h
        obtain ⟨h1, h2⟩ := h
        subst h1; subst h2
        obtain ⟨he, -⟩ := ih ln2 r2 hr
        exact ⟨by simp [he], by simp⟩

theorem readExact_append (d r : List Nat) :
    readExact d.length (d ++ r) = some (d, r) := by
  simp [readExact, List.take_left, List.drop_left]

theorem readExact_le (n : Nat) (l d r : List Nat)
    (h : readExact n l = some (d, r)) : r.length ≤ l.length := by
  unfold readExact at h
  split at h
  · simp only [Option.some.injEq, Prod.mk.injEq] at h
    obtain ⟨-, h2⟩ := h
    subst h2
    simp [List.length_drop]
  · exact absurd h (by simp)

theorem pushOrReturn_stepTo (f : Frame) (stack : Stack) (rest i2 : List Nat)
    (s2 : Stack) (h : pushOrReturn f stack rest = StepRes.stepTo i2 s2) :
    i2 = rest := by
  unfold pushOrReturn at h
  cases stack with
  | nil => exact absurd h (by simp)
  | cons e s =>
    obtain ⟨arr, cap⟩ := e
    simp only [StepRes.stepTo.injEq] at h
    exact h.1.symm

theorem dispatchTag_stepTo (t : FrameTag) (payload : List Nat) (stack : Stack)
    (rest i2 : List Nat) (s2 : Stack)
    (h : dispatchTag t payload stack rest = StepRes.stepTo i2 s2) :
    i2.length <= rest.length := by
  cases t <;> simp only [dispatchTag] at h
  case array =>
    cases hp : parseHeaderUsize payload with
    | error e => simp only [hp] at h; exact absurd h (by simp)
    | ok size =>
      simp only [hp] at h
      by_cases hs : size ≠ 0
      · rw [if_pos hs] at h
        injection h with h1 h2
        simp [← h1]
      · rw [if_neg hs] at h
        rw [pushOrReturn_stepTo _ _ _ _ _ h]
  case boolean =>
    by_cases h1 : payload = [116]
    · rw [if_pos h1] at h
      rw [pushOrReturn_stepTo _ _ _ _ _ h]
    · rw [if_neg h1] at h
      by_cases h2 : payload = [102]
      · rw [if_pos h2] at h
        rw [pushOrReturn_stepTo _ _ _ _ _ h]
      · rw [if_neg h2] at h
        exact absurd h (by simp)
  case bulk =>
    cases hp : parseHeaderUsize payload with
    | error e => simp only [hp] at h; exact absurd h (by simp)
    | ok n =>
      simp only [hp] at h
      by_cases hov : 2 ^ 64 ≤ n + 2
      · rw [if_pos hov] at h; exact absurd h (by simp)
      · rw [if_neg hov] at h
        cases hre : readExact (n + 2) rest with
        | none => simp only [hre] at h; exact absurd h (by simp)
        | some p =>
          obtain ⟨data, rest3⟩ := p
          simp only [hre] at h
          have hlen := readExact_le _ _ _ _ hre
          by_cases hdc : data.drop n ≠ crlf
          · rw [if_pos hdc] at h; exact absurd h (by simp)
          · rw [if_neg hdc] at h
            rw [pushOrReturn_stepTo _ _ _ _ _ h]
            exact hlen
  case error => rw [pushOrReturn_stepTo _ _ _ _ _ h]
  case integer =>
    cases hp : parseHeaderI64 payload with
    | error e => simp only [hp] at h; exact absurd h (by simp)
    | ok i =>
      simp only [hp] at h
      rw [pushOrReturn_stepTo _ _ _ _ _ h]
  case null => rw [pushOrReturn_stepTo _ _ _ _ _ h]
  case string => rw [pushOrReturn_stepTo _ _ _ _ _ h]

theorem readHead_lt (input : List Nat) (stack : Stack) (i2 : List Nat)
    (s2 : Stack) (h : readHead input stack = StepRes.stepTo i2 s2) :
    i2.length < input.length := by
  unfold readHead at h
  cases input with
  | nil =>
    by_cases he : stack.isEmpty
    · rw [if_pos he] at h; exact absurd h (by simp)
    · rw [if_neg he] at h; exact absurd h (by simp)
  | cons b rest =>
    cases ht : tagOfByte b with
    | none => simp only [ht] at h; exact absurd h (by simp)
    | some t =>
      simp only [ht] at h
      cases hl : readLine rest with
      | none => simp only [hl] at h; exact absurd h (by simp)
      | some p =>
        obtain ⟨line, rest2⟩ := p
        simp only [hl] at h
        obtain ⟨heq, hne⟩ := readLine_eq_append rest line rest2 hl
        have hr2 : rest2.length ≤ rest.length := by
          rw [heq, List.length_append]
          omega
        by_cases hshort : line.length < 2
        · rw [if_pos hshort] at h; exact absurd h (by simp)
        · rw [if_neg hshort] at h
          by_cases hterm : line.drop (line.length - 2) ≠ crlf
          · rw [if_pos hterm] at h; exact absurd h (by simp)
          · rw [if_neg hterm] at h
            have hd := dispatchTag_stepTo t (line.take (line.length - 2))
              stack rest2 i2 s2 h
            simp only [List.length_cons]
            omega

theorem readLoopF_congr (F1 F2 : Nat) (input : List Nat) (stack : Stack)
    (h1 : input.length < F1) (h2 : input.length < F2) :
    readLoopF F1 input stack = readLoopF F2 input stack := by
  induction F1 generalizing F2 input stack with
  | zero => omega
  | succ F ih =>
    cases F2 with
    | zero => omega
    | succ G =>
      cases hf : foldStack stack with
      | finished f => simp only [readLoopF, hf]
      | pending s2 =>
        cases hh : readHead input s2 with
        | term o => simp only [readLoopF, hf, hh]
        | stepTo i2 s3 =>
          have hlt := readHead_lt input s2 i2 s3 hh
          simp only [readLoopF, hf, hh]
          exact ih G i2 s3 (by omega) (by omega)

theorem readLoop_unfold (input : List Nat) (stack : Stack) :
    readLoop input stack =
      match foldStack stack with
      | FoldOut.finished f => ReadOutcome.ok (some f) input
      | FoldOut.pending s2 => stepRun (readHead input s2) := by
  unfold readLoop
  cases hf : foldStack stack with
  | finished f => simp only [readLoopF, hf]
  | pending s2 =>
    cases hh : readHead input s2 with
    | term o => simp only [readLoopF, hf, hh, stepRun]
    | stepTo i2 s3 =>
      have hlt := readHead_lt input s2 i2 s3 hh
      simp only [readLoopF, hf, hh, stepRun, readLoop]
      exact readLoopF_congr input.length (i2.length + 1) i2 s3 (by omega) (by omega)

/-! ## Stack folding lemmas -/

theorem foldStack_incomplete (stack : Stack) (h : IncompleteStack stack) :
    foldStack stack = FoldOut.pending stack := by
  cases stack with
  | nil => rfl
  | cons e s =>
    obtain ⟨arr, cap⟩ := e
    have hlt : arr.length < cap := h (arr, cap) (List.mem_cons_self _ _)
    simp [foldStack, Nat.ne_of_lt hlt]

theorem foldStack_cons_append (arr : List Frame) (f : Frame) (cap : Nat)
    (s : Stack) :
    foldStack ((arr ++ [f], cap) :: s) = pushFold f ((arr, cap) :: s) := rfl

theorem stepRun_pushOrReturn (f : Frame) (stack : Stack) (rest : List Nat) :
    stepRun (pushOrReturn f stack rest) = contFrame f stack rest := by
  cases stack with
  | nil => rfl
  | cons e s =>
    obtain ⟨arr, cap⟩ := e
    rfl

theorem readLoop_complete_top (arr : List Frame) (stack : Stack)
    (rest : List Nat) :
    readLoop rest ((arr, arr.length) :: stack)
      = contFrame (Frame.array (some arr)) stack rest := by
  rw [readLoop_unfold]
  have hf : foldStack ((arr, arr.length) :: stack)
      = pushFold (Frame.array (some arr)) stack := by
    simp [foldStack]
  rw [hf]
  cases stack with
  | nil => rfl
  | cons e s2 =>
    obtain ⟨a2, c2⟩ := e
    rw [← foldStack_cons_append]
    simp only [contFrame]
    conv_rhs => rw [readLoop_unfold]

/-! ## Decimal digit and header parsing lemmas -/

theorem natDigitsRevF_spec (F : Nat) : ∀ n, n < F →
    (∀ d ∈ natDigitsRevF F n, d < 10) ∧ natDigitsRevF F n ≠ [] ∧
    lval (natDigitsRevF F n) = n := by
  induction F with
  | zero => intro n h; omega
  | succ F ih =>
    intro n h
    by_cases h10 : n < 10
    · simp only [natDigitsRevF, if_pos h10]
      refine ⟨?_, by simp, ?_⟩
      · intro d hd
        simp only [List.mem_singleton] at hd
        omega
      · simp [lval]
    · have hdivlt : n / 10 < n := Nat.div_lt_self (by omega) (by omega)
      obtain ⟨ha, hb, hc⟩ := ih (n / 10) (by omega)
      simp only [natDigitsRevF, if_neg h10]
      refine ⟨?_, by simp, ?_⟩
      · intro d hd
        rcases List.mem_cons.mp hd with h1 | h2
        · subst h1; exact Nat.mod_lt n (by omega)
        · exact ha d h2
      · simp only [lval, hc]
        omega

theorem digitsValAux_digits (ds : List Nat) : ∀ acc, (∀ d ∈ ds, d < 10) →
    digitsValAux acc (ds.map (fun d => d + 48))
      = some (ds.foldl (fun a d => a * 10 + d) acc) := by
  induction ds with
  | nil => intro acc h; rfl
  | cons d ds ih =>
    intro acc h
    have hd : d < 10 := h d (List.mem_cons_self _ _)
    have hdig : isDigitByte (d + 48) = true := by
      simp only [isDigitByte, Bool.and_eq_true, decide_eq_true_eq]
      omega
    have hsub : d + 48 - 48 = d := by omega
    simp only [List.map_cons, digitsValAux, hdig, if_true, hsub, List.foldl_cons]
    exact ih _ (fun x hx => h x (List.mem_cons_of_mem _ hx))

theorem foldl_reverse_lval (ds : List Nat) :
    ds.reverse.foldl (fun a d => a * 10 + d) 0 = lval ds := by
  induction ds with
  | nil => rfl
  | cons d ds ih =>
    simp only [List.reverse_cons, List.foldl_append, List.foldl_cons,
      List.foldl_nil, ih, lval]
    omega

theorem natToBytes_digits (n : Nat) : ∀ b ∈ natToBytes n, 48 ≤ b ∧ b ≤ 57 := by
  intro b hb
  unfold natToBytes at hb
  obtain ⟨d, hd, rfl⟩ := List.mem_map.mp hb
  have := (natDigitsRevF_spec (n + 1) n (Nat.lt_succ_self n)).1 d
    (List.mem_reverse.mp hd)
  omega

theorem natToBytes_ne_nil (n : Nat) : natToBytes n ≠ [] := by
  unfold natToBytes
  obtain ⟨-, hne, -⟩ := natDigitsRevF_spec (n + 1) n (Nat.lt_succ_self n)
  simp [hne]

theorem digitsVal_natToBytes (n : Nat) : digitsVal (natToBytes n) = some n := by
  have key : digitsValAux 0 (natToBytes n) = some n := by
    unfold natToBytes
    obtain ⟨hlt, -, hval⟩ := natDigitsRevF_spec (n + 1) n (Nat.lt_succ_self n)
    rw [digitsValAux_digits _ 0 (fun d hd => hlt d (List.mem_reverse.mp hd))]
    rw [foldl_reverse_lval, hval]
  cases hnb : natToBytes n with
  | nil => exact absurd hnb (natToBytes_ne_nil n)
  | cons b bs =>
    have h1 : digitsVal (b :: bs) = digitsValAux 0 (b :: bs) := rfl
    rw [h1, ← hnb]
    exact key

theorem natToBytes_head_ne (n c : Nat) (hc : c < 48) :
    (natToBytes n).head? ≠ some c := by
  cases hnb : natToBytes n with
  | nil => simp
  | cons b bs =>
    have hb : 48 ≤ b ∧ b ≤ 57 := natToBytes_digits n b (by
      rw [hnb]; exact List.mem_cons_self _ _)
    simp only [List.head?_cons, ne_eq, Option.some.injEq]
    omega

theorem isValidUtf8F_ascii (F : Nat) : ∀ l, l.length < F →
    (∀ b ∈ l, b ≤ 127) → isValidUtf8F F l = true := by
  induction F with
  | zero => intro l hl; omega
  | succ F ih =>
    intro l hl h
    cases l with
    | nil => rfl
    | cons b rest =>
      have hb : b ≤ 127 := h b (List.mem_cons_self _ _)
      have hstep : utf8Step b rest = some rest := by
        unfold utf8Step
        rw [if_pos hb]
      simp only [isValidUtf8F, hstep]
      refine ih rest ?_ (fun x hx => h x (List.mem_cons_of_mem _ hx))
      simp only [List.length_cons] at hl
      omega

theorem isValidUtf8_ascii (l : List Nat) (h : ∀ b ∈ l, b ≤ 127) :
    isValidUtf8 l = true :=
  isValidUtf8F_ascii (l.length + 1) l (Nat.lt_succ_self _) h

theorem parseU64_natToBytes (n : Nat) (h : n < 2 ^ 64) :
    parseU64 (natToBytes n) = some n := by
  unfold parseU64
  rw [if_neg (natToBytes_head_ne n 43 (by omega)), digitsVal_natToBytes]
  show (if n < 2 ^ 64 then some n else none) = some n
  rw [if_pos h]

theorem parseHeaderUsize_natToBytes (n : Nat) (h : n < 2 ^ 64) :
    parseHeaderUsize (natToBytes n) = Except.ok n := by
  have hv : isValidUtf8 (natToBytes n) = true :=
    isValidUtf8_ascii _ (fun b hb => by have := natToBytes_digits n b hb; omega)
  simp only [parseHeaderUsize, hv, if_true, parseU64_natToBytes n h]

theorem intToBytes_mem_bound (i : Int) : ∀ b ∈ intToBytes i, b ≤ 127 := by
  intro b hb
  unfold intToBytes at hb
  by_cases hneg : i < 0
  · rw [if_pos hneg] at hb
    rcases List.mem_cons.mp hb with h1 | h2
    · omega
    · have := natToBytes_digits _ b h2; omega
  · rw [if_neg hneg] at hb
    have := natToBytes_digits _ b hb; omega

theorem intToBytes_no_lf (i : Int) : ∀ b ∈ intToBytes i, b ≠ 10 := by
  intro b hb
  unfold intToBytes at hb
  by_cases hneg : i < 0
  · rw [if_pos hneg] at hb
    rcases List.mem_cons.mp hb with h1 | h2
    · omega
    · have := natToBytes_digits _ b h2; omega
  · rw [if_neg hneg] at hb
    have := natToBytes_digits _ b hb; omega

theorem parseI64_intToBytes (i : Int) (h1 : -(2 ^ 63) ≤ i) (h2 : i < 2 ^ 63) :
    parseI64 (intToBytes i) = some i := by
  by_cases hneg : i < 0
  · have he : intToBytes i = 45 :: natToBytes i.natAbs := by
      unfold intToBytes; rw [if_pos hneg]
    rw [he]
    unfold parseI64
    rw [if_neg (by simp), if_pos (by simp)]
    simp only [List.tail_cons, digitsVal_natToBytes]
    rw [if_pos (show i.natAbs ≤ 2 ^ 63 by omega)]
    congr 1
    omega
  · have he : intToBytes i = natToBytes i.toNat := by
      unfold intToBytes; rw [if_neg hneg]
    rw [he]
    unfold parseI64
    rw [if_neg (natToBytes_head_ne _ 43 (by omega)),
      if_neg (natToBytes_head_ne _ 45 (by omega))]
    simp only [digitsVal_natToBytes]
    rw [if_pos (show i.toNat ≤ 2 ^ 63 - 1 by omega)]
    congr 1
    omega

theorem parseHeaderI64_intToBytes (i : Int) (h1 : -(2 ^ 63) ≤ i)
    (h2 : i < 2 ^ 63) :
    parseHeaderI64 (intToBytes i) = Except.ok i := by
  have hv : isValidUtf8 (intToBytes i) = true :=
    isValidUtf8_ascii _ (intToBytes_mem_bound i)
  simp only [parseHeaderI64, hv, if_true, parseI64_intToBytes i h1 h2]

/-! ## One full header consumption -/

theorem readHead_cons (b : Nat) (t : FrameTag) (hb : tagOfByte b = some t)
    (payload rest : List Nat) (hno : ∀ x ∈ payload, x ≠ 10) (stack : Stack) :
    readHead (b :: (payload ++ 13 :: 10 :: rest)) stack
      = dispatchTag t payload stack rest := by
  have h13 : ∀ x ∈ payload ++ [13], x ≠ 10 := by
    intro x hx
    rcases List.mem_append.mp hx with h | h
    · exact hno x h
    · simp only [List.mem_singleton] at h; omega
  have hline : readLine (payload ++ 13 :: 10 :: rest)
      = some (payload ++ [13, 10], rest) := by
    have h2 := readLine_append (payload ++ [13]) rest h13
    have e1 : (payload ++ [13]) ++ 10 :: rest = payload ++ 13 :: 10 :: rest := by
      simp
    have e2 : (payload ++ [13]) ++ [10] = payload ++ [13, 10] := by simp
    rw [e1, e2] at h2
    exact h2
  have hlen : (payload ++ [13, 10]).length = payload.length + 2 := by simp
  have hdrop : (payload ++ [13, 10]).drop ((payload ++ [13, 10]).length - 2)
      = crlf := by
    rw [hlen]
    have h2 : payload.length + 2 - 2 = payload.length := by omega
    rw [h2]
    rw [show crlf = [13, 10] from rfl]
    exact List.drop_left payload [13, 10]
  have htake : (payload ++ [13, 10]).take ((payload ++ [13, 10]).length - 2)
      = payload := by
    rw [hlen]
    have h2 : payload.length + 2 - 2 = payload.length := by omega
    rw [h2]
    exact List.take_left payload [13, 10]
  unfold readHead
  simp only [hb, hline]
  rw [if_neg (by rw [hlen]; omega), if_neg (by rw [hdrop]; simp), htake]

/-! ## Structural induction for the nested frame type -/

theorem Frame.inductionOn (motive : Frame → Prop)
    (hstring : ∀ s, motive (Frame.string s))
    (herror : ∀ e, motive (Frame.error e))
    (hinteger : ∀ i, motive (Frame.integer i))
    (hnull : motive Frame.null)
    (hboolean : ∀ b, motive (Frame.boolean b))
    (hbulkNone : motive (Frame.bulk none))
    (hbulkSome : ∀ d, motive (Frame.bulk (some d)))
    (harrayNone : motive (Frame.array none))
    (harraySome : ∀ l, (∀ f ∈ l, motive f) → motive (Frame.array (some l))) :
    ∀ f, motive f := by
  have key : ∀ n (f : Frame), sizeOf f ≤ n → motive f := by
    intro n
    induction n with
    | zero =>
      intro f hf
      cases f <;> simp at hf
    | succ n ih =>
      intro f hf
      cases f with
      | array a =>
        cases a with
        | none => exact harrayNone
        | some l =>
          refine harraySome l (fun g hg => ih g ?_)
          have h1 := List.sizeOf_lt_of_mem hg
          have h2 : 1 + (1 + sizeOf l) ≤ n + 1 := by simpa using hf
          omega
      | boolean b => exact hboolean b
      | bulk d =>
        cases d with
        | none => exact hbulkNone
        | some d2 => exact hbulkSome d2
      | error e => exact herror e
      | integer i => exact hinteger i
      | null => exact hnull
      | string s => exact hstring s
  exact fun f => key (sizeOf f) f (le_refl _)

/-! ## Unfolding equations for the encoder and the well-formedness check -/

theorem writeFrame_array_some (l : List Frame) :
    writeFrame (Frame.array (some l)) =
      match writeFrame.writeList l with
      | none => none
      | some body => some (42 :: natToBytes l.length ++ crlf ++ body) := rfl

theorem writeList_cons (f : Frame) (fs : List Frame) :
    writeFrame.writeList (f :: fs) =
      match writeFrame f, writeFrame.writeList fs with
      | some bf, some bfs => some (bf ++ bfs)
      | _, _ => none := rfl

theorem encodableList_cons (f : Frame) (fs : List Frame) :
    Encodable.encodableList (f :: fs)
      = (Encodable f && Encodable.encodableList fs) := rfl

theorem writeList_isSome (l : List Frame)
    (hm : ∀ f ∈ l, Encodable f = true → ∃ bs, writeFrame f = some bs)
    (h : Encodable.encodableList l = true) :
    ∃ body, writeFrame.writeList l = some body := by
  induction l with
  | nil => exact ⟨[], rfl⟩
  | cons f fs ih =>
    rw [encodableList_cons, Bool.and_eq_true] at h
    obtain ⟨bf, hbf⟩ := hm f (List.mem_cons_self _ _) h.1
    obtain ⟨bfs, hbfs⟩ := ih (fun g hg => hm g (List.mem_cons_of_mem _ hg)) h.2
    exact ⟨bf ++ bfs, by rw [writeList_cons, hbf, hbfs]⟩

theorem writeFrame_isSome : ∀ f, Encodable f = true →
    ∃ bs, writeFrame f = some bs := by
  intro f
  induction f using Frame.inductionOn with
  | hstring s => exact fun _ => ⟨_, rfl⟩
  | herror e => exact fun _ => ⟨_, rfl⟩
  | hinteger i => exact fun _ => ⟨_, rfl⟩
  | hnull => exact fun _ => ⟨_, rfl⟩
  | hboolean b => exact fun _ => ⟨_, rfl⟩
  | hbulkNone => exact fun h => absurd h (by decide)
  | hbulkSome d => exact fun _ => ⟨_, rfl⟩
  | harrayNone => exact fun h => absurd h (by decide)
  | harraySome l hm =>
    intro h
    have h2 : l.length < 2 ^ 64 ∧ Encodable.encodableList l = true := by
      simpa [Encodable, Bool.and_eq_true, decide_eq_true_eq] using h
    obtain ⟨body, hb⟩ := writeList_isSome l hm h2.2
    exact ⟨42 :: natToBytes l.length ++ crlf ++ body, by
      rw [writeFrame_array_some, hb]⟩

/-! ## The decoder consumes one encoded frame -/

theorem readLoop_pending (input : List Nat) (stack : Stack)
    (h : IncompleteStack stack) :
    readLoop input stack = stepRun (readHead input stack) := by
  rw [readLoop_unfold, foldStack_incomplete stack h]

theorem natToBytes_no_lf (n : Nat) : ∀ b ∈ natToBytes n, b ≠ 10 := by
  intro b hb
  have := natToBytes_digits n b hb
  omega

theorem readLoop_children (l : List Frame)
    (hmem : ∀ f ∈ l, Encodable f = true → ∀ bs, writeFrame f = some bs →
      ∀ (rest : List Nat) (stack : Stack), IncompleteStack stack →
        readLoop (bs ++ rest) stack = contFrame f stack rest)
    (henc : Encodable.encodableList l = true) :
    ∀ body, writeFrame.writeList l = some body →
    ∀ (arr : List Frame) (cap : Nat) (stack : Stack) (rest : List Nat),
      IncompleteStack stack → arr.length + l.length = cap →
      readLoop (body ++ rest) ((arr, cap) :: stack)
        = contFrame (Frame.array (some (arr ++ l))) stack rest := by
  induction l with
  | nil =>
    intro body hbody arr cap stack rest hstack hcap
    have hb : body = [] := by
      have h1 : some ([] : List Nat) = some body := hbody
      exact (Option.some.inj h1).symm
    subst hb
    have hc : cap = arr.length := by
      simp only [List.length_nil] at hcap
      omega
    subst hc
    simpa using readLoop_complete_top arr stack rest
  | cons f fs ih =>
    intro body hbody arr cap stack rest hstack hcap
    rw [writeList_cons] at hbody
    cases hbf : writeFrame f with
    | none => rw [hbf] at hbody; exact absurd hbody (by simp)
    | some bf =>
      cases hbfs : writeFrame.writeList fs with
      | none => rw [hbf, hbfs] at hbody; exact absurd hbody (by simp)
      | some bfs =>
        rw [hbf, hbfs] at hbody
        have hb : body = bf ++ bfs := (Option.some.inj hbody).symm
        subst hb
        rw [encodableList_cons, Bool.and_eq_true] at henc
        have hinc : IncompleteStack ((arr, cap) :: stack) := by
          intro e he
          rcases List.mem_cons.mp he with h1 | h2
          · subst h1
            show arr.length < cap
            simp only [List.length_cons] at hcap
            omega
          · exact hstack e h2
        have hstep := hmem f (List.mem_cons_self _ _) henc.1 bf hbf
          (bfs ++ rest) ((arr, cap) :: stack) hinc
        rw [List.append_assoc, hstep]
        have hcf : contFrame f ((arr, cap) :: stack) (bfs ++ rest)
            = readLoop (bfs ++ rest) ((arr ++ [f], cap) :: stack) := rfl
        rw [hcf]
        have hlen2 : (arr ++ [f]).length + fs.length = cap := by
          simp only [List.length_append, List.length_cons, List.length_nil]
            at hcap ⊢
          omega
        rw [ih (fun g hg => hmem g (List.mem_cons_of_mem _ hg)) henc.2
          bfs hbfs (arr ++ [f]) cap stack rest hstack hlen2]
        rw [List.append_assoc, List.singleton_append]

theorem readLoop_encode : ∀ f, Encodable f = true → ∀ bs,
    writeFrame f = some bs →
    ∀ (rest : List Nat) (stack : Stack), IncompleteStack stack →
      readLoop (bs ++ rest) stack = contFrame f stack rest := by
  intro f
  induction f using Frame.inductionOn with
  | hstring s =>
    intro henc bs hbs rest stack hstack
    have hno : ∀ x ∈ s, x ≠ 10 := by
      simp only [Encodable, lineSafe, Bool.and_eq_true, List.all_eq_true,
        decide_eq_true_eq] at henc
      exact fun x hx => (henc.2 x hx).2
    have hbs2 : bs = 43 :: s ++ crlf := by
      have h1 : some (43 :: s ++ crlf) = some bs := hbs
      exact (Option.some.inj h1).symm
    subst hbs2
    rw [readLoop_pending _ _ hstack]
    have harr : (43 :: s ++ crlf) ++ rest = 43 :: (s ++ 13 :: 10 :: rest) := by
      simp [crlf]
    rw [harr, readHead_cons 43 FrameTag.string rfl s rest hno stack]
    exact stepRun_pushOrReturn _ _ _
  | herror e =>
    intro henc bs hbs rest stack hstack
    have hno : ∀ x ∈ e, x ≠ 10 := by
      simp only [Encodable, lineSafe, Bool.and_eq_true, List.all_eq_true,
        decide_eq_true_eq] at henc
      exact fun x hx => (henc.2 x hx).2
    have hbs2 : bs = 45 :: e ++ crlf := by
      have h1 : some (45 :: e ++ crlf) = some bs := hbs
      exact (Option.some.inj h1).symm
    subst hbs2
    rw [readLoop_pending _ _ hstack]
    have harr : (45 :: e ++ crlf) ++ rest = 45 :: (e ++ 13 :: 10 :: rest) := by
      simp [crlf]
    rw [harr, readHead_cons 45 FrameTag.error rfl e rest hno stack]
    exact stepRun_pushOrReturn _ _ _
  | hinteger i =>
    intro henc bs hbs rest stack hstack
    have hrange : -(2 ^ 63 : Int) ≤ i ∧ i < 2 ^ 63 := by
      simpa [Encodable, decide_eq_true_eq] using henc
    have hbs2 : bs = 58 :: intToBytes i ++ crlf := by
      have h1 : some (58 :: intToBytes i ++ crlf) = some bs := hbs
      exact (Option.some.inj h1).symm
    subst hbs2
    rw [readLoop_pending _ _ hstack]
    have harr : (58 :: intToBytes i ++ crlf) ++ rest
        = 58 :: (intToBytes i ++ 13 :: 10 :: rest) := by
      simp [crlf]
    rw [harr, readHead_cons 58 FrameTag.integer rfl (intToBytes i) rest
      (intToBytes_no_lf i) stack]
    have hd : dispatchTag FrameTag.integer (intToBytes i) stack rest
        = pushOrReturn (Frame.integer i) stack rest := by
      unfold dispatchTag
      rw [parseHeaderI64_intToBytes i hrange.1 hrange.2]
    rw [hd]
    exact stepRun_pushOrReturn _ _ _
  | hnull =>
    intro henc bs hbs rest stack hstack
    have hbs2 : bs = 95 :: crlf := by
      have h1 : some (95 :: crlf) = some bs := hbs
      exact (Option.some.inj h1).symm
    subst hbs2
    rw [readLoop_pending _ _ hstack]
    have harr : (95 :: crlf) ++ rest = 95 :: (([] : List Nat) ++ 13 :: 10 :: rest) := by
      simp [crlf]
    rw [harr, readHead_cons 95 FrameTag.null rfl [] rest (by simp) stack]
    exact stepRun_pushOrReturn _ _ _
  | hboolean b =>
    intro henc bs hbs rest stack hstack
    cases b with
    | true =>
      have hbs2 : bs = 35 :: 116 :: crlf := by
        have h1 : some (35 :: 116 :: crlf) = some bs := hbs
        exact (Option.some.inj h1).symm
      subst hbs2
      rw [readLoop_pending _ _ hstack]
      have harr : (35 :: 116 :: crlf) ++ rest
          = 35 :: ([116] ++ 13 :: 10 :: rest) := by
        simp [crlf]
      rw [harr, readHead_cons 35 FrameTag.boolean rfl [116] rest
        (by simp) stack]
      exact stepRun_pushOrReturn _ _ _
    | false =>
      have hbs2 : bs = 35 :: 102 :: crlf := by
        have h1 : some (35 :: 102 :: crlf) = some bs := hbs
        exact (Option.some.inj h1).symm
      subst hbs2
      rw [readLoop_pending _ _ hstack]
      have harr : (35 :: 102 :: crlf) ++ rest
          = 35 :: ([102] ++ 13 :: 10 :: rest) := by
        simp [crlf]
      rw [harr, readHead_cons 35 FrameTag.boolean rfl [102] rest
        (by simp) stack]
      exact stepRun_pushOrReturn _ _ _
  | hbulkNone => exact fun henc => absurd henc (by decide)
  | hbulkSome d =>
    intro henc bs hbs rest stack hstack
    have hlen : d.length + 2 < 2 ^ 64 := by
      simp only [Encodable, Bool.and_eq_true, decide_eq_true_eq] at henc
      exact henc.1
    have hbs2 : bs = 36 :: natToBytes d.length ++ crlf ++ d ++ crlf := by
      have h1 : some (36 :: natToBytes d.length ++ crlf ++ d ++ crlf)
          = some bs := hbs
      exact (Option.some.inj h1).symm
    subst hbs2
    rw [readLoop_pending _ _ hstack]
    have harr : (36 :: natToBytes d.length ++ crlf ++ d ++ crlf) ++ rest
        = 36 :: (natToBytes d.length ++ 13 :: 10 :: (d ++ 13 :: 10 :: rest)) := by
      simp [crlf]
    rw [harr, readHead_cons 36 FrameTag.bulk rfl (natToBytes d.length)
      (d ++ 13 :: 10 :: rest) (natToBytes_no_lf _) stack]
    have hre : readExact (d.length + 2) (d ++ 13 :: 10 :: rest)
        = some (d ++ [13, 10], rest) := by
      have h1 := readExact_append (d ++ [13, 10]) rest
      have e3 : (d ++ [13, 10]).length = d.length + 2 := by simp
      have e4 : (d ++ [13, 10]) ++ rest = d ++ 13 :: 10 :: rest := by simp
      rw [e3, e4] at h1
      exact h1
    have hdrop : (d ++ [13, 10]).drop d.length = crlf := by
      rw [show crlf = [13, 10] from rfl]
      exact List.drop_left d [13, 10]
    have hov : ¬ (2 ^ 64 ≤ d.length + 2) := by omega
    have hd : dispatchTag FrameTag.bulk (natToBytes d.length) stack
        (d ++ 13 :: 10 :: rest)
        = pushOrReturn (Frame.bulk (some d)) stack rest := by
      simp [dispatchTag, parseHeaderUsize_natToBytes d.length
        (show d.length < 2 ^ 64 by omega), hov, hre, hdrop, List.take_left]
      intro hbad
      exact absurd hbad (by omega)
    rw [hd]
    exact stepRun_pushOrReturn _ _ _
  | harrayNone => exact fun henc => absurd henc (by decide)
  | harraySome l hm =>
    intro henc bs hbs rest stack hstack
    have henc2 : l.length < 2 ^ 64 ∧ Encodable.encodableList l = true := by
      simpa [Encodable, Bool.and_eq_true, decide_eq_true_eq] using henc
    rw [writeFrame_array_some] at hbs
    cases hwl : writeFrame.writeList l with
    | none => rw [hwl] at hbs; exact absurd hbs (by simp)
    | some body =>
      rw [hwl] at hbs
      have hbs2 : bs = 42 :: natToBytes l.length ++ crlf ++ body :=
        (Option.some.inj hbs).symm
      subst hbs2
      rw [readLoop_pending _ _ hstack]
      have harr : (42 :: natToBytes l.length ++ crlf ++ body) ++ rest
          = 42 :: (natToBytes l.length ++ 13 :: 10 :: (body ++ rest)) := by
        simp [crlf]
      rw [harr, readHead_cons 42 FrameTag.array rfl (natToBytes l.length)
        (body ++ rest) (natToBytes_no_lf _) stack]
      by_cases hl : l = []
      · subst hl
        have hbody : body = [] := by
          have h1 : some ([] : List Nat) = some body := hwl
          exact (Option.some.inj h1).symm
        subst hbody
        have hd : dispatchTag FrameTag.array (natToBytes ([] : List Frame).length)
            stack (([] : List Nat) ++ rest)
            = pushOrReturn (Frame.array (some [])) stack (([] : List Nat) ++ rest) := by
          simp [dispatchTag, show (([] : List Frame)).length = 0 from rfl,
            parseHeaderUsize_natToBytes 0 (by omega)]
        rw [hd]
        rw [show (([] : List Nat) ++ rest) = rest from rfl]
        exact stepRun_pushOrReturn _ _ _
      · have hlen0 : l.length ≠ 0 := by
          simpa using hl
        have hd : dispatchTag FrameTag.array (natToBytes l.length) stack
            (body ++ rest)
            = StepRes.stepTo (body ++ rest) (([], l.length) :: stack) := by
          simp [dispatchTag, parseHeaderUsize_natToBytes l.length henc2.1, hlen0]
        rw [hd]
        rw [show stepRun (StepRes.stepTo (body ++ rest) (([], l.length) :: stack))
          = readLoop (body ++ rest) (([], l.length) :: stack) from rfl]
        have hch := readLoop_children l hm henc2.2 body hwl [] l.length stack
          rest hstack (by simp)
        simpa using hch

/-- C1 counterexample: the data model admits the null bulk `Frame::Bulk(None)`
(and the spec's round-trip law quantifies over every constructible frame),
but `write_frame` has no serialization for it — it produces no bytes at all
— so the round-trip fails at this frame. -/
theorem C1_counterexample_null_bulk : ¬ RoundTrips (Frame.bulk none) := by
  rintro ⟨bs, hbs, -⟩
  exact Option.noConfusion hbs

/-- C1 (amended): the round-trip law holds for every frame of the data model
that contains no null bulk and no null array: for such a frame (with the
data-model invariants: `String`/`Error` payloads free of CR/LF, `Integer` in
the signed 64-bit range, lengths representable in `usize`, payload entries
bytes), `write_frame` produces bytes and `read_frame` decodes exactly the
same frame from them, consuming them entirely. -/
theorem C1_roundtrip_nullfree (f : Frame) (h : Encodable f = true) :
    RoundTrips f := by
  obtain ⟨bs, hbs⟩ := writeFrame_isSome f h
  refine ⟨bs, hbs, ?_⟩
  have h1 := readLoop_encode f h bs hbs [] [] (by intro e he; simp at he)
  rw [List.append_nil] at h1
  exact h1

/-- C1 witness: a concrete nested frame — an array holding a bulk, a
negative integer, a nested array of a boolean and a null, a string and an
error — satisfies the data-model invariants and round-trips. -/
theorem C1_witness :
    Encodable (Frame.array (some [Frame.bulk (some [83, 69, 84]),
      Frame.integer (-7), Frame.array (some [Frame.boolean true, Frame.null]),
      Frame.string [111, 107], Frame.error [69, 82, 82]])) = true ∧
    RoundTrips (Frame.array (some [Frame.bulk (some [83, 69, 84]),
      Frame.integer (-7), Frame.array (some [Frame.boolean true, Frame.null]),
      Frame.string [111, 107], Frame.error [69, 82, 82]])) :=
  ⟨rfl, C1_roundtrip_nullfree _ rfl⟩

/-! ## Dirty end-of-stream on truncated encodings -/

theorem no10_of_short_prefix (p q s t : List Nat) (hs : ∀ b ∈ s, b ≠ 10)
    (heq : p ++ q = s ++ 10 :: t) (hlen : p.length ≤ s.length) :
    ∀ b ∈ p, b ≠ 10 := by
  intro b hb
  have hp : p = s.take p.length := by
    have h1 : (p ++ q).take p.length = p := List.take_left p q
    rw [heq, List.take_append_of_le_length hlen] at h1
    exact h1.symm
  rw [hp] at hb
  exact hs b (List.mem_of_mem_take hb)

theorem append_split_of_le (p q A B : List Nat) (h : p ++ q = A ++ B)
    (hl : A.length ≤ p.length) : ∃ t, p = A ++ t ∧ t ++ q = B := by
  have h1 : (p ++ q).take A.length = p.take A.length :=
    List.take_append_of_le_length hl
  rw [h, List.take_left] at h1
  have hp : p = A ++ p.drop A.length := by
    conv_lhs => rw [← List.take_append_drop A.length p]
    rw [← h1]
  refine ⟨p.drop A.length, hp, ?_⟩
  have h2 : A ++ (p.drop A.length ++ q) = A ++ B := by
    rw [← List.append_assoc, ← hp]
    exact h
  exact List.append_cancel_left h2

theorem readLoop_eof_empty (stack : Stack) (hstack : IncompleteStack stack)
    (hne : stack ≠ []) :
    readLoop [] stack = ReadOutcome.err ReadError.ioUnexpectedEof [] := by
  cases stack with
  | nil => exact absurd rfl hne
  | cons e s =>
    rw [readLoop_pending _ _ hstack]
    simp [readHead, stepRun]

theorem readLoop_eof_short (b : Nat) (t : FrameTag) (hb : tagOfByte b = some t)
    (p2 : List Nat) (hno : ∀ x ∈ p2, x ≠ 10) (stack : Stack)
    (hstack : IncompleteStack stack) :
    readLoop (b :: p2) stack = ReadOutcome.err ReadError.ioUnexpectedEof p2 := by
  rw [readLoop_pending _ _ hstack]
  simp only [readHead, hb, readLine_none p2 hno, stepRun]

theorem readLoop_prefix_singleLine (c : Nat) (t : FrameTag)
    (hc : tagOfByte c = some t) (payload : List Nat)
    (hno : ∀ x ∈ payload, x ≠ 10) (p q : List Nat)
    (heq : p ++ q = c :: payload ++ crlf) (hq : q ≠ [])
    (stack : Stack) (hstack : IncompleteStack stack)
    (hemp : stack = [] → p ≠ []) :
    ∃ r, readLoop p stack = ReadOutcome.err ReadError.ioUnexpectedEof r := by
  cases p with
  | nil =>
    have hne : stack ≠ [] := fun h => (hemp h) rfl
    exact ⟨[], readLoop_eof_empty stack hstack hne⟩
  | cons b p2 =>
    rw [List.cons_append] at heq
    injection heq with hb heq2
    subst hb
    have heq3 : p2 ++ q = (payload ++ [13]) ++ 10 :: [] := by
      rw [heq2]
      simp [crlf]
    have hlen : p2.length ≤ (payload ++ [13]).length := by
      have h1 := congrArg List.length heq3
      simp only [List.length_append, List.length_cons, List.length_nil,
        List.length_singleton] at h1
      have h2 : 1 ≤ q.length := by
        cases q with
        | nil => exact absurd rfl hq
        | cons x xs => simp
      simp only [List.length_append, List.length_singleton]
      omega
    have h13 : ∀ x ∈ payload ++ [13], x ≠ 10 := by
      intro x hx
      rcases List.mem_append.mp hx with h | h
      · exact hno x h
      · simp only [List.mem_singleton] at h
        omega
    have hno2 : ∀ x ∈ p2, x ≠ 10 :=
      no10_of_short_prefix p2 q (payload ++ [13]) [] h13 heq3 hlen
    exact ⟨p2, readLoop_eof_short _ t hc p2 hno2 stack hstack⟩

theorem readLoop_children_prefix (l : List Frame)
    (hmem : ∀ f ∈ l, Encodable f = true → ∀ p q,
      writeFrame f = some (p ++ q) → q ≠ [] →
      ∀ stack, IncompleteStack stack → (stack = [] → p ≠ []) →
      ∃ r, readLoop p stack = ReadOutcome.err ReadError.ioUnexpectedEof r)
    (henc : Encodable.encodableList l = true) :
    ∀ body, writeFrame.writeList l = some body →
    ∀ p2 q, p2 ++ q = body → q ≠ [] →
    ∀ (arr : List Frame) (cap : Nat) (stack : Stack),
      IncompleteStack stack → arr.length + l.length = cap →
      ∃ r, readLoop p2 ((arr, cap) :: stack)
        = ReadOutcome.err ReadError.ioUnexpectedEof r := by
  induction l with
  | nil =>
    intro body hbody p2 q heq hq arr cap stack hstack hcap
    have hb : body = [] := by
      have h1 : some ([] : List Nat) = some body := hbody
      exact (Option.some.inj h1).symm
    subst hb
    exact absurd (List.append_eq_nil.mp heq).2 hq
  | cons f fs ih =>
    intro body hbody p2 q heq hq arr cap stack hstack hcap
    rw [writeList_cons] at hbody
    cases hbf : writeFrame f with
    | none => rw [hbf] at hbody; exact absurd hbody (by simp)
    | some bf =>
      cases hbfs : writeFrame.writeList fs with
      | none => rw [hbf, hbfs] at hbody; exact absurd hbody (by simp)
      | some bfs =>
        rw [hbf, hbfs] at hbody
        have hb : body = bf ++ bfs := (Option.some.inj hbody).symm
        subst hb
        rw [encodableList_cons, Bool.and_eq_true] at henc
        have hinc : IncompleteStack ((arr, cap) :: stack) := by
          intro e he
          rcases List.mem_cons.mp he with h1 | h2
          · subst h1
            show arr.length < cap
            simp only [List.length_cons] at hcap
            omega
          · exact hstack e h2
        by_cases hsplit : bf.length ≤ p2.length
        · obtain ⟨p3, hp3, hq3⟩ := append_split_of_le p2 q bf bfs heq hsplit
          rw [hp3]
          rw [readLoop_encode f henc.1 bf hbf p3 ((arr, cap) :: stack) hinc]
          rw [show contFrame f ((arr, cap) :: stack) p3
            = readLoop p3 ((arr ++ [f], cap) :: stack) from rfl]
          have hlen2 : (arr ++ [f]).length + fs.length = cap := by
            simp only [List.length_append, List.length_cons, List.length_nil]
              at hcap ⊢
            omega
          exact ih (fun g hg => hmem g (List.mem_cons_of_mem _ hg)) henc.2
            bfs hbfs p3 q hq3 hq (arr ++ [f]) cap stack hstack hlen2
        · obtain ⟨t, hbf_eq, ht_eq⟩ := append_split_of_le bf bfs p2 q heq.symm
            (by omega)
          have ht : t ≠ [] := by
            intro h0
            subst h0
            rw [List.append_nil] at hbf_eq
            subst hbf_eq
            omega
          refine hmem f (List.mem_cons_self _ _) henc.1 p2 t ?_ ht
            ((arr, cap) :: stack) hinc (by simp)
          rw [hbf, hbf_eq]

theorem readLoop_encode_prefix : ∀ f, Encodable f = true → ∀ p q,
    writeFrame f = some (p ++ q) → q ≠ [] →
    ∀ stack, IncompleteStack stack → (stack = [] → p ≠ []) →
    ∃ r, readLoop p stack = ReadOutcome.err ReadError.ioUnexpectedEof r := by
  intro f
  induction f using Frame.inductionOn with
  | hstring s =>
    intro henc p q hw hq stack hstack hemp
    have hno : ∀ x ∈ s, x ≠ 10 := by
      simp only [Encodable, lineSafe, Bool.and_eq_true, List.all_eq_true,
        decide_eq_true_eq] at henc
      exact fun x hx => (henc.2 x hx).2
    have heq : p ++ q = 43 :: s ++ crlf := by
      have h1 : some (43 :: s ++ crlf) = some (p ++ q) := hw
      exact (Option.some.inj h1).symm
    exact readLoop_prefix_singleLine 43 FrameTag.string rfl s hno p q heq hq
      stack hstack hemp
  | herror e =>
    intro henc p q hw hq stack hstack hemp
    have hno : ∀ x ∈ e, x ≠ 10 := by
      simp only [Encodable, lineSafe, Bool.and_eq_true, List.all_eq_true,
        decide_eq_true_eq] at henc
      exact fun x hx => (henc.2 x hx).2
    have heq : p ++ q = 45 :: e ++ crlf := by
      have h1 : some (45 :: e ++ crlf) = some (p ++ q) := hw
      exact (Option.some.inj h1).symm
    exact readLoop_prefix_singleLine 45 FrameTag.error rfl e hno p q heq hq
      stack hstack hemp
  | hinteger i =>
    intro henc p q hw hq stack hstack hemp
    have heq : p ++ q = 58 :: intToBytes i ++ crlf := by
      have h1 : some (58 :: intToBytes i ++ crlf) = some (p ++ q) := hw
      exact (Option.some.inj h1).symm
    exact readLoop_prefix_singleLine 58 FrameTag.integer rfl (intToBytes i)
      (intToBytes_no_lf i) p q heq hq stack hstack hemp
  | hnull =>
    intro henc p q hw hq stack hstack hemp
    have heq : p ++ q = 95 :: ([] : List Nat) ++ crlf := by
      have h1 : some (95 :: crlf) = some (p ++ q) := hw
      exact (Option.some.inj h1).symm
    exact readLoop_prefix_singleLine 95 FrameTag.null rfl [] (by simp) p q heq
      hq stack hstack hemp
  | hboolean b =>
    intro henc p q hw hq stack hstack hemp
    cases b with
    | true =>
      have heq : p ++ q = 35 :: [116] ++ crlf := by
        have h1 : some (35 :: 116 :: crlf) = some (p ++ q) := hw
        exact (Option.some.inj h1).symm
      exact readLoop_prefix_singleLine 35 FrameTag.boolean rfl [116] (by simp)
        p q heq hq stack hstack hemp
    | false =>
      have heq : p ++ q = 35 :: [102] ++ crlf := by
        have h1 : some (35 :: 102 :: crlf) = some (p ++ q) := hw
        exact (Option.some.inj h1).symm
      exact readLoop_prefix_singleLine 35 FrameTag.boolean rfl [102] (by simp)
        p q heq hq stack hstack hemp
  | hbulkNone => exact fun henc => absurd henc (by decide)
  | hbulkSome d =>
    intro henc p q hw hq stack hstack hemp
    have hlen64 : d.length + 2 < 2 ^ 64 := by
      simp only [Encodable, Bool.and_eq_true, decide_eq_true_eq] at henc
      exact henc.1
    have heq : p ++ q = 36 :: natToBytes d.length ++ crlf ++ d ++ crlf := by
      have h1 : some (36 :: natToBytes d.length ++ crlf ++ d ++ crlf)
          = some (p ++ q) := hw
      exact (Option.some.inj h1).symm
    cases p with
    | nil =>
      have hne : stack ≠ [] := fun h => (hemp h) rfl
      exact ⟨[], readLoop_eof_empty stack hstack hne⟩
    | cons b p2 =>
      rw [List.cons_append] at heq
      injection heq with hb heq2
      subst hb
      have heq3 : p2 ++ q
          = (natToBytes d.length ++ [13]) ++ 10 :: (d ++ crlf) := by
        rw [heq2]
        simp [crlf]
      by_cases hshort : p2.length ≤ (natToBytes d.length ++ [13]).length
      · have h13 : ∀ x ∈ natToBytes d.length ++ [13], x ≠ 10 := by
          intro x hx
          rcases List.mem_append.mp hx with h | h
          · exact natToBytes_no_lf _ x h
          · simp only [List.mem_singleton] at h
            omega
        have hno2 : ∀ x ∈ p2, x ≠ 10 :=
          no10_of_short_prefix p2 q (natToBytes d.length ++ [13]) (d ++ crlf)
            h13 heq3 hshort
        exact ⟨p2, readLoop_eof_short 36 FrameTag.bulk rfl p2 hno2 stack hstack⟩
      · obtain ⟨d2, hp2, hd2⟩ := append_split_of_le p2 q
          (natToBytes d.length ++ [13, 10]) (d ++ crlf)
          (by rw [heq2]; simp [crlf])
          (by simp only [List.length_append, List.length_singleton,
                List.length_cons, List.length_nil] at hshort ⊢
              omega)
        have hd2len : d2.length < d.length + 2 := by
          have h1 := congrArg List.length hd2
          simp only [List.length_append, crlf, List.length_cons,
            List.length_nil] at h1
          have h2 : 1 ≤ q.length := by
            cases q with
            | nil => exact absurd rfl hq
            | cons x xs => simp
          omega
        have hre : readExact (d.length + 2) d2 = none := by
          unfold readExact
          rw [if_neg (by omega)]
        have harr : p2 = natToBytes d.length ++ 13 :: 10 :: d2 := by
          rw [hp2]
          simp
        rw [harr, readLoop_pending _ _ hstack,
          readHead_cons 36 FrameTag.bulk rfl (natToBytes d.length) d2
            (natToBytes_no_lf _) stack]
        have hov : ¬ (2 ^ 64 ≤ d.length + 2) := by omega
        have hd : dispatchTag FrameTag.bulk (natToBytes d.length) stack d2
            = StepRes.term (ReadOutcome.err ReadError.ioUnexpectedEof d2) := by
          simp [dispatchTag, parseHeaderUsize_natToBytes d.length
            (show d.length < 2 ^ 64 by omega), hov, hre]
          omega
        rw [hd]
        exact ⟨d2, rfl⟩
  | harrayNone => exact fun henc => absurd henc (by decide)
  | harraySome l hm =>
    intro henc p q hw hq stack hstack hemp
    have henc2 : l.length < 2 ^ 64 ∧ Encodable.encodableList l = true := by
      simpa [Encodable, Bool.and_eq_true, decide_eq_true_eq] using henc
    rw [writeFrame_array_some] at hw
    cases hwl : writeFrame.writeList l with
    | none => rw [hwl] at hw; exact absurd hw (by simp)
    | some body =>
      rw [hwl] at hw
      have heq : p ++ q = 42 :: natToBytes l.length ++ crlf ++ body :=
        (Option.some.inj hw).symm
      cases p with
      | nil =>
        have hne : stack ≠ [] := fun h => (hemp h) rfl
        exact ⟨[], readLoop_eof_empty stack hstack hne⟩
      | cons b p2 =>
        rw [List.cons_append] at heq
        injection heq with hb heq2
        subst hb
        have heq3 : p2 ++ q = (natToBytes l.length ++ [13]) ++ 10 :: body := by
          rw [heq2]
          simp [crlf]
        by_cases hshort : p2.length ≤ (natToBytes l.length ++ [13]).length
        · have h13 : ∀ x ∈ natToBytes l.length ++ [13], x ≠ 10 := by
            intro x hx
            rcases List.mem_append.mp hx with h | h
            · exact natToBytes_no_lf _ x h
            · simp only [List.mem_singleton] at h
              omega
          have hno2 : ∀ x ∈ p2, x ≠ 10 :=
            no10_of_short_prefix p2 q (natToBytes l.length ++ [13]) body
              h13 heq3 hshort
          exact ⟨p2,
            readLoop_eof_short 42 FrameTag.array rfl p2 hno2 stack hstack⟩
        · obtain ⟨body2, hp2, hb2⟩ := append_split_of_le p2 q
            (natToBytes l.length ++ [13, 10]) body
            (by rw [heq2]; simp [crlf])
            (by simp only [List.length_append, List.length_singleton,
                  List.length_cons, List.length_nil] at hshort ⊢
                omega)
          have hlne : l ≠ [] := by
            intro h0
            subst h0
            have hbody : body = [] := by
              have h1 : some ([] : List Nat) = some body := hwl
              exact (Option.some.inj h1).symm
            subst hbody
            exact hq (List.append_eq_nil.mp hb2).2
          have hlen0 : l.length ≠ 0 := by simpa using hlne
          have harr : p2 = natToBytes l.length ++ 13 :: 10 :: body2 := by
            rw [hp2]
            simp
          rw [harr, readLoop_pending _ _ hstack,
            readHead_cons 42 FrameTag.array rfl (natToBytes l.length) body2
              (natToBytes_no_lf _) stack]
          have hd : dispatchTag FrameTag.array (natToBytes l.length) stack body2
              = StepRes.stepTo body2 (([], l.length) :: stack) := by
            simp [dispatchTag, parseHeaderUsize_natToBytes l.length henc2.1,
              hlen0]
          rw [hd]
          rw [show stepRun (StepRes.stepTo body2 (([], l.length) :: stack))
            = readLoop body2 (([], l.length) :: stack) from rfl]
          exact readLoop_children_prefix l hm henc2.2 body hwl body2 q hb2 hq
            [] l.length stack hstack (by simp)

/-- C6 counterexample: a stream that ends after bytes of an in-progress
frame have been consumed need not produce `UnexpectedEof` — on the two-byte
input `#` LF (a boolean prefix followed by a bare-LF header line) the
decoder panics in the CRLF-check underflow instead of returning the
error. -/
theorem C6_counterexample_panic_not_eof :
    readFrame [35, 10] = ReadOutcome.panicked ∧
    (readFrame [35, 10]).isUnexpectedEofErr = false :=
  ⟨rfl, rfl⟩

/-- C6 (amended): end-of-stream before any byte of a new top-level frame is
the clean `Ok(None)`; and for streams that are truncated encodings — a
nonempty proper prefix of `write_frame` output for any frame of the
(null-free) data model, which covers cuts mid-header, mid-bulk-payload and
inside a pending nested array — `read_frame` returns
`Err(IoError(UnexpectedEof))`.  (On in-progress byte sequences that are not
prefixes of valid encodings the decoder may fail differently, e.g. the
bare-LF panic of the C7 analysis.) -/
theorem C6_eof_behaviour :
    readFrame [] = ReadOutcome.ok none [] ∧
    (∀ (f : Frame) (p q : List Nat), Encodable f = true →
      writeFrame f = some (p ++ q) → p ≠ [] → q ≠ [] →
      ∃ r, readFrame p = ReadOutcome.err ReadError.ioUnexpectedEof r) := by
  refine ⟨rfl, ?_⟩
  intro f p q henc hw hp hq
  exact readLoop_encode_prefix f henc p q hw hq [] (by intro e he; simp at he)
    (fun _ => hp)

/-- C6 witness: cutting the encoding `:5\r\n` of the integer frame 5 after
two bytes leaves a dirty in-progress stream, and `read_frame` on it reports
`UnexpectedEof`. -/
theorem C6_witness :
    Encodable (Frame.integer 5) = true ∧
    (∃ r, readFrame [58, 53] = ReadOutcome.err ReadError.ioUnexpectedEof r) :=
  ⟨rfl, C6_eof_behaviour.2 (Frame.integer 5) [58, 53] [13, 10] rfl rfl
    (by simp) (by simp)⟩

end RespModel
